import Mathlib

/-!
Verification development for the CoreNVR recorder.

This file gives a shallow embedding of the storage cleaner (retention and
emergency pruning), the recovery controller, the last-segment probe and the
web playback handlers, translated from the Go sources, together with
theorems settling the frozen specification claims.

Conventions used throughout the embedding:
* wall-clock instants are integers counting seconds (the code's `time.Time`
  at second granularity, a single uniform timeline as on a UTC-configured
  host); a date parsed from a `YYYY-MM-DD` directory name denotes the
  instant of its midnight, `epochDay * 86400`;
* byte strings are Lean `String`s; the directory names that matter are
  ASCII, where Go byte indexing and Lean character indexing agree;
* fallible filesystem reads are `Option`; a Go panic is modelled as `none`;
* float comparisons of the code (`percent >= 90`, `free >= total * 0.10`)
  are modelled by the exact integer comparisons they implement.
-/

namespace CoreNVR

/-- Gregorian leap-year test (as Go's `time` package implements it). -/
def isLeap (y : Nat) : Bool :=
  (y % 4 == 0 && y % 100 != 0) || y % 400 == 0

/-- Number of days in a month of a given year. -/
def daysInMonth (y m : Nat) : Nat :=
  if m = 2 then (if isLeap y then 29 else 28)
  else if m = 4 ∨ m = 6 ∨ m = 9 ∨ m = 11 then 30
  else 31

/-- Days contributed by the months strictly before month `m` of year `y`. -/
def daysBeforeMonth (y m : Nat) : Nat :=
  (List.range (m - 1)).foldl (fun acc i => acc + daysInMonth y (i + 1)) 0

/-- Leap years in `[0, y)` (year 0 counted as a leap year). -/
def leapsBefore (y : Nat) : Nat :=
  (y + 3) / 4 - (y + 99) / 100 + (y + 399) / 400

/-- Days strictly before January 1 of year `y`, counting from year 0. -/
def daysBeforeYear (y : Nat) : Nat :=
  365 * y + leapsBefore y

/-- Day number of a calendar date: consecutive dates map to consecutive
numbers, so differences are exact day counts. -/
def epochDay (y m d : Nat) : Nat :=
  daysBeforeYear y + daysBeforeMonth y m + (d - 1)

/-- Decimal digit value of a character, if it is one. -/
def digitVal (c : Char) : Option Nat :=
  if '0' ≤ c ∧ c ≤ '9' then some (c.toNat - '0'.toNat) else none

/-- Model of `time.Parse("2006-01-02", s)`: exactly four digits, dash, two
digits, dash, two digits, with the month and day in range for the year.
Returns the day number of the parsed date. -/
def parseDate (s : String) : Option Int :=
  match s.data with
  | [y1, y2, y3, y4, c1, m1, m2, c2, d1, d2] =>
    if c1 = '-' ∧ c2 = '-' then
      match digitVal y1, digitVal y2, digitVal y3, digitVal y4,
            digitVal m1, digitVal m2, digitVal d1, digitVal d2 with
      | some a, some b, some c, some d, some e, some f, some g, some h =>
        let y := 1000 * a + 100 * b + 10 * c + d
        let mo := 10 * e + f
        let da := 10 * g + h
        if 1 ≤ mo ∧ mo ≤ 12 ∧ 1 ≤ da ∧ da ≤ daysInMonth y mo then
          some (epochDay y mo da)
        else none
      | _, _, _, _, _, _, _, _ => none
    else none
  | _ => none

/-- Model of Go's `filepath.Ext`: scan from the end of the path until a
path separator; on hitting a dot, return the suffix from the dot on; the
first argument is the reversed remaining characters, the second the
already-scanned suffix in original order. -/
def extAux : List Char → List Char → List Char
  | [], _ => []
  | c :: rest, acc =>
    if c = '/' then []
    else if c = '.' then c :: acc
    else extAux rest (c :: acc)

/-- `filepath.Ext`: the final-dot suffix of the last path element. -/
def extOf (s : String) : String :=
  ⟨extAux s.data.reverse []⟩

namespace Cleaner

/-- The shape test `len(dirName) == 10 && dirName[4] == '-' && dirName[7] == '-'`
applied by `Cleaner.cleanup` before parsing a directory name. -/
def isDateDirName (s : String) : Bool :=
  s.data.length == 10 && s.data.get? 4 == some '-' && s.data.get? 7 == some '-'

/-- `cutoffTime := time.Now().AddDate(0, 0, -retentionDays)`. -/
def cutoffTime (now retentionDays : Int) : Int :=
  now - retentionDays * 86400

/-- The deletion test of `Cleaner.cleanup` for one date directory: name has
date shape, parses as a date, and the parsed midnight is strictly before the
cutoff instant. -/
def shouldDelete (now retentionDays : Int) (name : String) : Bool :=
  isDateDirName name &&
    match parseDate name with
    | some day => decide (day * 86400 < cutoffTime now retentionDays)
    | none => false

/-- Effect of one `Cleaner.cleanup` pass on the set of date partitions:
the walk removes exactly the directories passing `shouldDelete`.
Returns `(kept, deleted)`. -/
def cleanup (now retentionDays : Int) (parts : List String) :
    List String × List String :=
  (parts.filter (fun n => !shouldDelete now retentionDays n),
   parts.filter (shouldDelete now retentionDays))

/-- Disk alert level of `MonitorDiskUsage`, from the exact comparison that
the float test `percentUsed >= threshold` implements
(`percentUsed = 100 * used / total`): 3 = emergency (≥95%),
2 = critical (≥90%), 1 = warning (≥80%), 0 = none. -/
def alertLevel (used total : Int) : Nat :=
  if 95 * total ≤ 100 * used then 3
  else if 90 * total ≤ 100 * used then 2
  else if 80 * total ≤ 100 * used then 1
  else 0

/-- Cleanup action dispatched at the end of a `MonitorDiskUsage` sample. -/
inductive MonAction where
  | noCleanup : MonAction
  | runCleanup : MonAction
  | runEmergency : MonAction
deriving DecidableEq, Repr

/-- The dispatch at the end of `MonitorDiskUsage`: emergency cleanup at
level 3, the normal cleanup pass (with the configured retention, not gated
on it being positive) at level 2, nothing otherwise. -/
def monitorAction (used total : Int) : MonAction :=
  if alertLevel used total = 3 then .runEmergency
  else if alertLevel used total = 2 then .runCleanup
  else .noCleanup

/-- A date partition as collected by `emergencyCleanup`: directory name,
parsed day number, and size in bytes. -/
structure EDir where
  name : String
  day : Int
  size : Int
deriving DecidableEq, Repr

/-- The collection walk of `emergencyCleanup`: keep the directories whose
name has date shape and parses as a date. -/
def collectDirs (entries : List (String × Int)) : List EDir :=
  entries.filterMap fun e =>
    if isDateDirName e.1 then (parseDate e.1).map fun d => ⟨e.1, d, e.2⟩
    else none

/-- Ascending-by-date ordering used below. -/
def dirLE (a b : EDir) : Prop := a.day ≤ b.day

instance : DecidableRel dirLE := fun a b => inferInstanceAs (Decidable (a.day ≤ b.day))

/-- Insert one directory into a date-sorted list. -/
def insertDir (d : EDir) : List EDir → List EDir
  | [] => [d]
  | e :: rest => if d.day ≤ e.day then d :: e :: rest else e :: insertDir d rest

/-- The sort-ascending-by-date step of `emergencyCleanup` (the source uses
an exchange sort; any sort agrees up to ties on equal dates). -/
def sortDirs : List EDir → List EDir
  | [] => []
  | d :: rest => insertDir d (sortDirs rest)

/-- The deletion loop of `emergencyCleanup`.  State: current available
bytes; for each sorted directory in turn: stop once available bytes reach
the 10% floor (the float test `currentFree >= total * 0.10`, exactly
`total ≤ 10 * free`); skip directories dated within the last two days
(`dir.date.After(now.AddDate(0,0,-2))`); otherwise delete, which frees the
directory's size.  Returns `(finalFree, deleted, remaining)` with `deleted`
in deletion order. -/
def emergencyLoop (now total : Int) : Int → List EDir → Int × List EDir × List EDir
  | free, [] => (free, [], [])
  | free, d :: rest =>
    if total ≤ 10 * free then (free, [], d :: rest)
    else if now - 2 * 86400 < d.day * 86400 then
      let r := emergencyLoop now total free rest
      (r.1, r.2.1, d :: r.2.2)
    else
      let r := emergencyLoop now total (free + d.size) rest
      (r.1, d :: r.2.1, r.2.2)

/-- `Cleaner.emergencyCleanup`: collect date partitions, sort ascending by
date, delete oldest-first until the 10% floor is reached, never touching
partitions younger than two days. -/
def emergencyCleanup (now total free : Int) (entries : List (String × Int)) :
    Int × List EDir × List EDir :=
  emergencyLoop now total free (sortDirs (collectDirs entries))

end Cleaner

namespace Recorder

/-- A directory entry as returned by `os.ReadDir`: name, directory flag,
and modification time (an instant; the zero `time.Time` is instant 0 and
all real modification times are positive). -/
structure FileEntry where
  name : String
  isDir : Bool
  modTime : Int
deriving DecidableEq, Repr

/-- The scan of `GetLastRecordingTime` over one directory listing: the
latest modification time among plain files with extension `.ts`, starting
from the zero time. -/
def latestTs (entries : List FileEntry) : Int :=
  entries.foldl
    (fun acc e =>
      if e.isDir = false ∧ extOf e.name = ".ts" ∧ acc < e.modTime then e.modTime
      else acc)
    0

/-- `Recorder.GetLastRecordingTime`: read today's partition; only when that
read fails try yesterday's; zero time when neither is readable.  Each
argument is `none` when `os.ReadDir` fails for that partition. -/
def getLastRecordingTime (today yesterday : Option (List FileEntry)) : Int :=
  match today with
  | some entries => latestTs entries
  | none =>
    match yesterday with
    | some entries => latestTs entries
    | none => 0

end Recorder

namespace Recovery

/-- The three recovery tiers, in escalation order (the spec calls the first
tier `pipeline_restart`; the source's action string is
`"goroutine_restart"`). -/
inductive RAction where
  | goroutine_restart : RAction
  | service_restart : RAction
  | power_cycle : RAction
deriving DecidableEq, Repr

/-- The recovery configuration fields the controller consults. -/
structure RecoveryConfig where
  staleThreshold : Int
  verificationDelay : Int
  maxPowerCyclesPer30Min : Int
deriving DecidableEq, Repr

/-- Per-camera recovery state: detection timestamp (`none` is the zero
`time.Time`) and the ordered attempt history of the current episode. -/
structure CamState where
  failureDetectedAt : Option Int
  recoveryAttempts : List (Int × RAction)
deriving DecidableEq, Repr

/-- State of a camera that has never failed. -/
def initState : CamState := ⟨none, []⟩

/-- What one `checkCamera` tick did (log/alert outcomes are irrelevant to
the claims except as markers of which branch ran). -/
inductive Outcome where
  | noRecordings : Outcome
  | fresh : Outcome
  | recovered : Outcome
  | detected : Outcome
  | verifying : Outcome
  | capAlert : Outcome
  | acted : RAction → Outcome
  | exhausted : Outcome
deriving DecidableEq, Repr

/-- `RecoveryManager.hasAttempted`: whether the action appears in the
current attempt history. -/
def hasAttempted (st : CamState) (a : RAction) : Bool :=
  st.recoveryAttempts.any fun p => p.2 == a

/-- `RecoveryManager.countRecentAttempts`: attempts of the given action
whose timestamp is strictly after `now - window`. -/
def countRecentAttempts (st : CamState) (a : RAction) (now window : Int) : Nat :=
  (st.recoveryAttempts.filter fun p => p.2 == a && decide (now - window < p.1)).length

/-- `RecoveryManager.recoverCamera`: refuse with a critical alert when the
recorded power cycles of the last 30 minutes reach the cap; otherwise run
the first tier not yet attempted this episode, appending it to the history;
alert exhaustion when all three were attempted. -/
def recoverCamera (cfg : RecoveryConfig) (st : CamState) (now : Int) :
    CamState × Outcome :=
  if cfg.maxPowerCyclesPer30Min ≤ (countRecentAttempts st .power_cycle now 1800 : Int) then
    (st, .capAlert)
  else if hasAttempted st .goroutine_restart = false then
    ({ st with recoveryAttempts := st.recoveryAttempts ++ [(now, .goroutine_restart)] },
      .acted .goroutine_restart)
  else if hasAttempted st .service_restart = false then
    ({ st with recoveryAttempts := st.recoveryAttempts ++ [(now, .service_restart)] },
      .acted .service_restart)
  else if hasAttempted st .power_cycle = false then
    ({ st with recoveryAttempts := st.recoveryAttempts ++ [(now, .power_cycle)] },
      .acted .power_cycle)
  else (st, .exhausted)

/-- `RecoveryManager.checkCamera` at instant `now` observing the probe
value `lastRecording` (0 is the zero time): fresh recordings clear any
failure state; stale ones first set the detection timestamp, then wait out
the verification delay, then escalate via `recoverCamera`. -/
def checkCamera (cfg : RecoveryConfig) (st : CamState) (now lastRecording : Int) :
    CamState × Outcome :=
  if lastRecording = 0 then (st, .noRecordings)
  else if now - lastRecording < cfg.staleThreshold then
    match st.failureDetectedAt with
    | some _ => (⟨none, []⟩, .recovered)
    | none => (st, .fresh)
  else
    match st.failureDetectedAt with
    | none => ({ st with failureDetectedAt := some now }, .detected)
    | some t0 =>
      if now - t0 < cfg.verificationDelay then (st, .verifying)
      else recoverCamera cfg st now

/-- A run of the controller over a list of `(tick instant, probe value)`
observations: final state plus the timestamped outcome of every tick. -/
def runTrace (cfg : RecoveryConfig) (st : CamState) :
    List (Int × Int) → CamState × List (Int × Outcome)
  | [] => (st, [])
  | (t, last) :: rest =>
    let r := checkCamera cfg st t last
    let rr := runTrace cfg r.1 rest
    (rr.1, (t, r.2) :: rr.2)

/-- The state after running the controller from a fresh camera. -/
def finalState (cfg : RecoveryConfig) (events : List (Int × Int)) : CamState :=
  (runTrace cfg initState events).1

/-- Occurrences of an action in the current attempt history. -/
def countAction (st : CamState) (a : RAction) : Nat :=
  (st.recoveryAttempts.filter fun p => p.2 == a).length

/-- The episode invariant of the recovery state: each tier at most once in
the history, and no tier present without the previous tier present. -/
def Inv (st : CamState) : Prop :=
  countAction st .goroutine_restart ≤ 1 ∧
  countAction st .service_restart ≤ 1 ∧
  countAction st .power_cycle ≤ 1 ∧
  (hasAttempted st .service_restart = true → hasAttempted st .goroutine_restart = true) ∧
  (hasAttempted st .power_cycle = true → hasAttempted st .service_restart = true)

/-- The concrete observation trace used to refute the rolling-window claim:
three failure episodes, each escalating to a power cycle, separated by
momentary recoveries, all within 30 minutes. -/
def cexEvents : List (Int × Int) :=
  [(1000, 1), (1060, 1), (1120, 1), (1180, 1),
   (1240, 1200),
   (1300, 1), (1360, 1), (1420, 1), (1480, 1),
   (1540, 1500),
   (1600, 1), (1660, 1), (1720, 1), (1780, 1)]

end Recovery

namespace WebUI

/-- `timeStr := filename[:8]`: the first eight bytes of a segment file
name; `none` models the Go slice panic when the name is shorter than
eight bytes. -/
def sliceTime (s : String) : Option (List Char) :=
  if 8 ≤ s.data.length then some (s.data.take 8) else none

/-- Parse of `timeStr[:2] : timeStr[3:5] : timeStr[6:8]` through
`time.Parse`: positions 2 and 5 are never inspected; the six selected
characters must be digits forming a valid time of day.  Result in seconds
of the day. -/
def parseHMS : List Char → Option Int
  | [a, b, _, c, d, _, e, f] =>
    match digitVal a, digitVal b, digitVal c, digitVal d, digitVal e, digitVal f with
    | some a, some b, some c, some d, some e, some f =>
      let hh := 10 * a + b
      let mm := 10 * c + d
      let ss := 10 * e + f
      if hh ≤ 23 ∧ mm ≤ 59 ∧ ss ≤ 59 then some ((hh * 3600 + mm * 60 + ss : Nat) : Int)
      else none
    | _, _, _, _, _, _ => none
  | _ => none

/-- Start second of a segment file in the timeline handler: the slice may
panic (`none`); a parse error is discarded (`startTime, _ := time.Parse`)
and yields the zero time, second 0. -/
def fileStart (s : String) : Option Int :=
  (sliceTime s).map fun l =>
    match parseHMS l with
    | some t => t
    | none => 0

/-- The timeline handler's segment end: `startTime.Add(30 * time.Minute)`
— a hardcoded 30 minutes, taking no notice of the configured
`storage.segment_duration` passed here as `segmentDuration` — formatted as
`23:59:59` when the end falls on the next day. -/
def timelineSegEnd (segmentDuration s : Int) : Int :=
  if 86400 ≤ s + 1800 then 86399 else s + 1800

/-- Parse every file of the partition, failing (panic) if any name is
shorter than eight bytes. -/
def parseStarts : List String → Option (List Int)
  | [] => some []
  | f :: rest =>
    match fileStart f, parseStarts rest with
    | some s, some ss => some (s :: ss)
    | _, _ => none

/-- Insert one segment into a list sorted by start second (the source
sorts the segment records by their `StartTime` string; on zero-padded
`HH:MM:SS` strings that is numeric order of the start second). -/
def insertSeg (x : Int × Int) : List (Int × Int) → List (Int × Int)
  | [] => [x]
  | y :: rest => if x.1 ≤ y.1 then x :: y :: rest else y :: insertSeg x rest

/-- Sort segments by start second. -/
def sortSegs : List (Int × Int) → List (Int × Int)
  | [] => []
  | x :: rest => insertSeg x (sortSegs rest)

/-- The gaps the handler's loop reports between consecutive segments:
`(end_i, start_{i+1})` whenever strictly more than two minutes apart, with
the duration in truncated minutes. -/
def midGaps : List (Int × Int) → List (Int × Int × Int)
  | a :: b :: rest =>
    (if 120 < b.1 - a.2 then [(a.2, b.1, (b.1 - a.2) / 60)] else []) ++
      midGaps (b :: rest)
  | _ => []

/-- The handler's full gap derivation over the sorted segments: a gap from
midnight to the first start, the consecutive gaps, a gap from the last end
to `23:59:59` (each only when strictly longer than two minutes), and the
whole day as a single 1440-minute gap when there are no segments. -/
def gapsOf : List (Int × Int) → List (Int × Int × Int)
  | [] => [(0, 86399, 1440)]
  | s :: rest =>
    (if 120 < s.1 - 0 then [(0, s.1, (s.1 - 0) / 60)] else []) ++
    midGaps (s :: rest) ++
    (let lastSeg := (s :: rest).getLast (List.cons_ne_nil s rest)
     if 120 < 86399 - lastSeg.2 then [(lastSeg.2, 86399, (86399 - lastSeg.2) / 60)]
     else [])

/-- `Server.handleRecordingsTimeline` on the `.ts` files of one partition:
parse the starts (`none` on a slice panic), pair each with its end, sort by
start, and derive the gaps. -/
def handleRecordingsTimeline (segmentDuration : Int) (files : List String) :
    Option (List (Int × Int) × List (Int × Int × Int)) :=
  (parseStarts files).map fun starts =>
    let segs := sortSegs (starts.map fun s => (s, timelineSegEnd segmentDuration s))
    (segs, gapsOf segs)

/-- `Server.handleRecordingsList`: for each `.ts` file, slice the first
eight bytes into the start-time field (`none` on a slice panic; no further
validation happens on this route). -/
def handleRecordingsList : List String → Option (List (String × List Char))
  | [] => some []
  | f :: rest =>
    match sliceTime f, handleRecordingsList rest with
    | some t, some ts => some ((f, t) :: ts)
    | _, _ => none

/-- Modelled from the spec's wording for the timeline gaps: the candidate
boundary periods — midnight to the first start, each consecutive
`(end_i, start_{i+1})`, last end to `23:59:59`. -/
def specBoundaries : List (Int × Int) → List (Int × Int)
  | [] => []
  | s :: rest =>
    (0, s.1) :: ((List.zip (s :: rest) rest).map fun p => (p.1.2, p.2.1)) ++
      [(((s :: rest).getLast (List.cons_ne_nil s rest)).2, 86399)]

/-- Modelled from the spec's wording: the reported gaps are exactly the
boundary periods strictly longer than two minutes, with truncated-minute
durations; an empty day is one 1440-minute gap. -/
def specGaps (segs : List (Int × Int)) : List (Int × Int × Int) :=
  match segs with
  | [] => [(0, 86399, 1440)]
  | _ :: _ =>
    (specBoundaries segs).filterMap fun p =>
      if 120 < p.2 - p.1 then some (p.1, p.2, (p.2 - p.1) / 60) else none

/-- A path component (between slashes), as a character list. -/
def normalComp (c : List Char) : Prop :=
  c ≠ [] ∧ c ≠ ['.'] ∧ c ≠ ['.', '.'] ∧ '/' ∉ c

instance (c : List Char) : Decidable (normalComp c) :=
  inferInstanceAs (Decidable (_ ∧ _ ∧ _ ∧ _))

/-- Render an absolute path from its components (`renderPath [a, b]` is
`/a/b`), as the character list of the Go path string. -/
def renderPath : List (List Char) → List Char
  | [] => []
  | c :: rest => '/' :: (c ++ renderPath rest)

/-- One step of `filepath.Clean` on an absolute path, at component level:
drop empty and `.` components, let `..` pop the previous component (or
nothing at the root), keep the rest. -/
def cleanStep (acc : List (List Char)) (c : List Char) : List (List Char) :=
  if c = [] ∨ c = ['.'] then acc
  else if c = ['.', '.'] then acc.dropLast
  else acc ++ [c]

/-- `filepath.Clean` of an absolute path given by components. -/
def cleanComps (comps : List (List Char)) : List (List Char) :=
  comps.foldl cleanStep []

/-- Split a path fragment on `/` into components. -/
def splitComps : List Char → List (List Char)
  | [] => [[]]
  | c :: rest =>
    let r := splitComps rest
    if c = '/' then [] :: r
    else (c :: r.headI) :: r.tail

/-- Reply of a recording file route. -/
inductive PathResp where
  | badRequest : PathResp
  | forbidden : PathResp
  | notFound : PathResp
  | served : List (List Char) → PathResp
deriving DecidableEq, Repr

/-- Whether a reply refuses to serve. -/
def isRejected : PathResp → Bool
  | .served _ => false
  | _ => true

/-- `Server.handleRecordingPlayback` after URL parsing (`camera` is the
first path segment, slash-free; `date` the ten bytes after it; `filename`
the raw remainder, possibly containing slashes): reject empty fields,
an unparsable date, or an extension other than `.ts`; then reject paths
whose canonical absolute form does not extend the camera's recordings
directory (`filepath.HasPrefix` of the rendered strings); else serve. -/
def handleRecordingPlayback (base : List (List Char))
    (camera date filename : String) : PathResp :=
  if camera = "" then .badRequest
  else if date = "" ∨ filename = "" then .badRequest
  else if (parseDate date).isNone then .badRequest
  else if extOf filename ≠ ".ts" then .badRequest
  else if (renderPath (cleanComps (base ++ [camera.data, "recordings".data]))).isPrefixOf
      (renderPath (cleanComps (base ++ [camera.data, "recordings".data, date.data] ++
        splitComps filename.data))) = false then .forbidden
  else .served (cleanComps (base ++ [camera.data, "recordings".data, date.data] ++
    splitComps filename.data))

/-- `Server.handleRecordingPlaylist` after URL parsing into exactly three
nonempty slash-free parts: only the canonical-path containment check and
an existence check (`present`) guard the route — no date validation and no
extension check. -/
def handleRecordingPlaylist (base : List (List Char))
    (camera date filename : String) (present : Bool) : PathResp :=
  if (renderPath (cleanComps (base ++ [camera.data, "recordings".data]))).isPrefixOf
      (renderPath (cleanComps (base ++ [camera.data, "recordings".data, date.data] ++
        splitComps filename.data))) = false then .forbidden
  else if present = false then .notFound
  else .served (cleanComps (base ++ [camera.data, "recordings".data, date.data] ++
    splitComps filename.data))

end WebUI

/-- A directory name that parses as a date necessarily has the
`YYYY-MM-DD` shape that `Cleaner.cleanup` tests first. -/
theorem parseDate_shape {s : String} {day : Int} (hp : parseDate s = some day) :
    Cleaner.isDateDirName s = true := by
  unfold parseDate at hp
  split at hp
  case _ y1 y2 y3 y4 c1 m1 m2 c2 d1 d2 heq =>
    split at hp
    case isTrue h =>
      simp [Cleaner.isDateDirName, heq, h.1, h.2]
    case isFalse h => exact absurd hp (by simp)
  case _ => exact absurd hp (by simp)

/-- On a name parsing to day number `day`, the cleaner deletes exactly when
the partition midnight lies strictly before the cutoff instant. -/
theorem shouldDelete_eq {name : String} {day : Int}
    (hp : parseDate name = some day) (now R : Int) :
    Cleaner.shouldDelete now R name = decide (day * 86400 < now - R * 86400) := by
  have hshape := parseDate_shape hp
  simp [Cleaner.shouldDelete, Cleaner.cutoffTime, hp, hshape]

/-- A partition whose midnight is strictly before the cutoff is among the
directories a cleanup pass deletes. -/
theorem mem_cleanup_deleted {name : String} {day : Int}
    (hp : parseDate name = some day) {now R : Int}
    (h : day * 86400 < now - R * 86400)
    {parts : List String} (hmem : name ∈ parts) :
    name ∈ (Cleaner.cleanup now R parts).2 := by
  simp only [Cleaner.cleanup, List.mem_filter, shouldDelete_eq hp,
    decide_eq_true_eq, hmem, true_and]
  exact h

/-- **C1, counterexample.** At noon of day 730916 (date `2001-03-07`) with
retention horizon `R = 2`, the partition `2001-03-05` is dated exactly
`today - R` — the claim says it remains — yet the cleanup pass deletes it. -/
theorem claim_C1_counterexample :
    parseDate "2001-03-05" = some 730914 ∧
    (730916 * 86400 + 43200 : Int) / 86400 - 2 = 730914 ∧
    "2001-03-05" ∈ (Cleaner.cleanup (730916 * 86400 + 43200) 2 ["2001-03-05"]).2 := by
  decide

/-- **C1, amended.** A retention pass at instant `now` with horizon `R ≥ 1`
deletes a date partition iff its midnight instant is strictly before
`now - R` days.  Consequently every partition dated strictly before
`today - R` is deleted and every partition dated strictly after `today - R`
remains; the partition dated exactly `today - R` is deleted whenever the
pass runs strictly after midnight. -/
theorem claim_C1 (now R : Int) (hR : 1 ≤ R) (hnow : 0 ≤ now)
    (parts : List String) (name : String) (day : Int)
    (hp : parseDate name = some day) (hmem : name ∈ parts) :
    (name ∈ (Cleaner.cleanup now R parts).2 ↔ day * 86400 < now - R * 86400) ∧
    (day < now / 86400 - R → name ∈ (Cleaner.cleanup now R parts).2) ∧
    (now / 86400 - R < day → name ∈ (Cleaner.cleanup now R parts).1) := by
  have hdiv : 86400 * (now / 86400) + now % 86400 = now := Int.ediv_add_emod now 86400
  have hr0 : 0 ≤ now % 86400 := Int.emod_nonneg now (by norm_num)
  have hr1 : now % 86400 < 86400 := Int.emod_lt_of_pos now (by norm_num)
  have hiff : name ∈ (Cleaner.cleanup now R parts).2 ↔ day * 86400 < now - R * 86400 := by
    simp only [Cleaner.cleanup, List.mem_filter, shouldDelete_eq hp,
      decide_eq_true_eq, hmem, true_and]
  refine ⟨hiff, ?_, ?_⟩
  · intro h
    have h1 : day + 1 ≤ now / 86400 - R := Int.lt_iff_add_one_le.mp h
    have h2 : (day + 1) * 86400 ≤ (now / 86400 - R) * 86400 :=
      mul_le_mul_of_nonneg_right h1 (by norm_num)
    exact hiff.mpr (by linarith)
  · intro h
    have h1 : now / 86400 - R + 1 ≤ day := Int.lt_iff_add_one_le.mp h
    have h2 : (now / 86400 - R + 1) * 86400 ≤ day * 86400 :=
      mul_le_mul_of_nonneg_right h1 (by norm_num)
    have hnd : ¬ (day * 86400 < now - R * 86400) := by linarith
    simp only [Cleaner.cleanup, List.mem_filter, hmem, true_and,
      Bool.not_eq_true', shouldDelete_eq hp]
    simpa using hnd

/-- **C1, witness.** Concrete run of the amended theorem: at noon of day
730916 with horizon 2, the partition `2001-03-01` (dated `today - 6`) is
deleted. -/
theorem claim_C1_witness :
    "2001-03-01" ∈ (Cleaner.cleanup (730916 * 86400 + 43200) 2 ["2001-03-01"]).2 :=
  (claim_C1 (730916 * 86400 + 43200) 2 (by norm_num) (by norm_num)
    ["2001-03-01"] "2001-03-01" 730910 (by decide) (by decide)).2.1 (by decide)

/-- Membership in an insertion step. -/
theorem mem_insertDir {d : Cleaner.EDir} {l : List Cleaner.EDir} {x : Cleaner.EDir} :
    x ∈ Cleaner.insertDir d l ↔ x = d ∨ x ∈ l := by
  induction l with
  | nil => simp [Cleaner.insertDir]
  | cons e rest ih =>
    simp only [Cleaner.insertDir]
    split
    · simp [or_comm, or_left_comm]
    · simp only [List.mem_cons, ih]
      tauto

/-- Insertion preserves sortedness by date. -/
theorem pairwise_insertDir {d : Cleaner.EDir} {l : List Cleaner.EDir}
    (h : l.Pairwise Cleaner.dirLE) :
    (Cleaner.insertDir d l).Pairwise Cleaner.dirLE := by
  induction l with
  | nil => simp [Cleaner.insertDir, List.pairwise_cons]
  | cons e rest ih =>
    rw [List.pairwise_cons] at h
    simp only [Cleaner.insertDir]
    split
    case isTrue hle =>
      refine List.Pairwise.cons ?_ (List.Pairwise.cons h.1 h.2)
      intro x hx
      rcases List.mem_cons.mp hx with rfl | hx
      · exact hle
      · exact le_trans hle (h.1 x hx)
    case isFalse hgt =>
      refine List.Pairwise.cons ?_ (ih h.2)
      intro x hx
      rcases mem_insertDir.mp hx with rfl | hx
      · exact le_of_not_le hgt
      · exact h.1 x hx

/-- The sort of `emergencyCleanup` produces a date-ascending list. -/
theorem pairwise_sortDirs (l : List Cleaner.EDir) :
    (Cleaner.sortDirs l).Pairwise Cleaner.dirLE := by
  induction l with
  | nil => exact List.Pairwise.nil
  | cons d rest ih => exact pairwise_insertDir ih

/-- The deleted directories form a sublist of the scanned list (deletion
order is scan order). -/
theorem emergencyLoop_deleted_sublist (now total : Int) :
    ∀ (l : List Cleaner.EDir) (free : Int),
      (Cleaner.emergencyLoop now total free l).2.1.Sublist l := by
  intro l
  induction l with
  | nil => intro free; simp [Cleaner.emergencyLoop]
  | cons d rest ih =>
    intro free
    simp only [Cleaner.emergencyLoop]
    split
    · simp
    · split
      · exact (ih free).trans (List.sublist_cons_self d rest)
      · exact List.Sublist.cons₂ d (ih (free + d.size))

/-- Every directory the loop deletes is at least two days old. -/
theorem emergencyLoop_deleted_old (now total : Int) :
    ∀ (l : List Cleaner.EDir) (free : Int) (d : Cleaner.EDir),
      d ∈ (Cleaner.emergencyLoop now total free l).2.1 →
      d.day * 86400 ≤ now - 2 * 86400 := by
  intro l
  induction l with
  | nil => intro free d h; simp [Cleaner.emergencyLoop] at h
  | cons e rest ih =>
    intro free d h
    simp only [Cleaner.emergencyLoop] at h
    split at h
    · simp at h
    · split at h
      case isTrue => exact ih free d h
      case isFalse hyoung =>
        rcases List.mem_cons.mp h with rfl | h
        · exact le_of_not_lt hyoung
        · exact ih (free + e.size) d h

/-- When the loop terminates, either the 10% floor is met or everything
still on disk among the scanned directories is younger than two days. -/
theorem emergencyLoop_post (now total : Int) :
    ∀ (l : List Cleaner.EDir) (free : Int),
      total ≤ 10 * (Cleaner.emergencyLoop now total free l).1 ∨
      ∀ d ∈ (Cleaner.emergencyLoop now total free l).2.2,
        now - 2 * 86400 < d.day * 86400 := by
  intro l
  induction l with
  | nil => intro free; right; simp [Cleaner.emergencyLoop]
  | cons e rest ih =>
    intro free
    simp only [Cleaner.emergencyLoop]
    split
    case isTrue hfloor => left; exact hfloor
    case isFalse =>
      split
      case isTrue hyoung =>
        rcases ih free with h | h
        · left; exact h
        · right
          intro d hd
          rcases List.mem_cons.mp hd with rfl | hd
          · exact hyoung
          · exact h d hd
      case isFalse => exact ih (free + e.size)

/-- **C2.** Emergency prune: on termination either available bytes have
reached the 10% floor or every remaining date partition is dated within the
last two days; the deleted partitions come oldest-first in ascending date
order; and no partition younger than two days is ever deleted. -/
theorem claim_C2 (now total free : Int) (entries : List (String × Int)) :
    (total ≤ 10 * (Cleaner.emergencyCleanup now total free entries).1 ∨
      ∀ d ∈ (Cleaner.emergencyCleanup now total free entries).2.2,
        now - 2 * 86400 < d.day * 86400) ∧
    (Cleaner.emergencyCleanup now total free entries).2.1.Pairwise Cleaner.dirLE ∧
    (∀ d ∈ (Cleaner.emergencyCleanup now total free entries).2.1,
      d.day * 86400 ≤ now - 2 * 86400) := by
  refine ⟨emergencyLoop_post now total _ free, ?_, ?_⟩
  · exact (pairwise_sortDirs _).sublist (emergencyLoop_deleted_sublist now total _ free)
  · exact emergencyLoop_deleted_old now total _ free

/-- **C9.** A disk sample in the critical band (90% ≤ used < 95%) makes the
monitor dispatch the normal cleanup pass — the dispatch consults only the
usage level, never `retention_days` — and with `retention_days = 0` the
cutoff is the current instant, so a cleanup pass at any instant strictly
past midnight deletes every date-named partition dated today or earlier. -/
theorem claim_C9 (used total now : Int)
    (h90 : 90 * total ≤ 100 * used) (h95 : 100 * used < 95 * total)
    (parts : List String) (name : String) (day : Int)
    (hp : parseDate name = some day) (hmem : name ∈ parts)
    (hday : day ≤ now / 86400) (hmid : 0 < now % 86400) :
    Cleaner.monitorAction used total = Cleaner.MonAction.runCleanup ∧
    Cleaner.cutoffTime now 0 = now ∧
    name ∈ (Cleaner.cleanup now 0 parts).2 := by
  have hlevel : Cleaner.alertLevel used total = 2 := by
    unfold Cleaner.alertLevel
    rw [if_neg (not_le.mpr h95), if_pos h90]
  refine ⟨?_, by simp [Cleaner.cutoffTime], ?_⟩
  · unfold Cleaner.monitorAction
    rw [hlevel]
    simp
  · have hdiv : 86400 * (now / 86400) + now % 86400 = now := Int.ediv_add_emod now 86400
    have h2 : day * 86400 ≤ (now / 86400) * 86400 :=
      mul_le_mul_of_nonneg_right hday (by norm_num)
    exact mem_cleanup_deleted hp (by linarith) hmem

/-- **C9, witness.** Concrete critical sample (91 of 100 bytes used) at noon
of day 730916: the monitor dispatches the cleanup and the pass deletes
today's partition `2001-03-07`. -/
theorem claim_C9_witness :
    Cleaner.monitorAction 91 100 = Cleaner.MonAction.runCleanup ∧
    Cleaner.cutoffTime (730916 * 86400 + 43200) 0 = 730916 * 86400 + 43200 ∧
    "2001-03-07" ∈ (Cleaner.cleanup (730916 * 86400 + 43200) 0 ["2001-03-07"]).2 :=
  claim_C9 91 100 (730916 * 86400 + 43200) (by norm_num) (by norm_num)
    ["2001-03-07"] "2001-03-07" 730916 (by decide) (by decide)
    (by decide) (by decide)

/-- Characterization of the directory scan of the last-segment probe:
the fold starting at `acc` dominates `acc` and every qualifying entry, and
its value is either `acc` or the modification time of a qualifying entry. -/
theorem latestTs_fold_spec (entries : List Recorder.FileEntry) :
    ∀ acc : Int,
      acc ≤ entries.foldl
        (fun acc e =>
          if e.isDir = false ∧ extOf e.name = ".ts" ∧ acc < e.modTime then e.modTime
          else acc) acc ∧
      (∀ e ∈ entries, e.isDir = false → extOf e.name = ".ts" →
        e.modTime ≤ entries.foldl
          (fun acc e =>
            if e.isDir = false ∧ extOf e.name = ".ts" ∧ acc < e.modTime then e.modTime
            else acc) acc) ∧
      (entries.foldl
          (fun acc e =>
            if e.isDir = false ∧ extOf e.name = ".ts" ∧ acc < e.modTime then e.modTime
            else acc) acc = acc ∨
        ∃ e ∈ entries, e.isDir = false ∧ extOf e.name = ".ts" ∧
          entries.foldl
            (fun acc e =>
              if e.isDir = false ∧ extOf e.name = ".ts" ∧ acc < e.modTime then e.modTime
              else acc) acc = e.modTime) := by
  induction entries with
  | nil => intro acc; simp
  | cons e rest ih =>
    intro acc
    simp only [List.foldl_cons]
    by_cases hc : e.isDir = false ∧ extOf e.name = ".ts" ∧ acc < e.modTime
    · rw [if_pos hc]
      obtain ⟨h1, h2, h3⟩ := ih e.modTime
      refine ⟨le_of_lt (lt_of_lt_of_le hc.2.2 h1), ?_, ?_⟩
      · intro x hx hxd hxe
        rcases List.mem_cons.mp hx with rfl | hx
        · exact h1
        · exact h2 x hx hxd hxe
      · rcases h3 with h | ⟨x, hx, hxc⟩
        · exact Or.inr ⟨e, List.mem_cons_self e rest, hc.1, hc.2.1, h⟩
        · exact Or.inr ⟨x, List.mem_cons_of_mem e hx, hxc⟩
    · rw [if_neg hc]
      obtain ⟨h1, h2, h3⟩ := ih acc
      refine ⟨h1, ?_, ?_⟩
      · intro x hx hxd hxe
        rcases List.mem_cons.mp hx with rfl | hx
        · have : ¬ acc < x.modTime := fun hlt => hc ⟨hxd, hxe, hlt⟩
          exact le_trans (le_of_not_lt this) h1
        · exact h2 x hx hxd hxe
      · rcases h3 with h | ⟨x, hx, hxc⟩
        · exact Or.inl h
        · exact Or.inr ⟨x, List.mem_cons_of_mem e hx, hxc⟩

/-- **C4, counterexample.** Today's partition is readable but contains no
`.ts` file while yesterday's newest segment has modification time 100: the
claim says the probe falls back and returns 100, but it returns the zero
time. -/
theorem claim_C4_counterexample :
    Recorder.getLastRecordingTime (some [])
        (some [⟨"23-30-00.ts", false, 100⟩]) = 0 ∧
    (0 : Int) ≠ 100 := by
  constructor
  · rfl
  · decide

/-- **C4, amended.** The probe takes today's directory listing whenever the
read succeeds — even when it holds no `.ts` file, in which case it returns
the zero time with no fallback — and yesterday's listing only when reading
today's fails; the result is the greatest modification time of a plain
`.ts` file of the chosen listing (zero when there is none), and the zero
time when neither directory is readable. -/
theorem claim_C4 (today yesterday : Option (List Recorder.FileEntry))
    (es : List Recorder.FileEntry)
    (hsel : today = some es ∨ (today = none ∧ yesterday = some es)) :
    (∀ e ∈ es, e.isDir = false → extOf e.name = ".ts" →
      e.modTime ≤ Recorder.getLastRecordingTime today yesterday) ∧
    (Recorder.getLastRecordingTime today yesterday = 0 ∨
      ∃ e ∈ es, e.isDir = false ∧ extOf e.name = ".ts" ∧
        Recorder.getLastRecordingTime today yesterday = e.modTime) ∧
    Recorder.getLastRecordingTime none none = 0 := by
  have hval : Recorder.getLastRecordingTime today yesterday = Recorder.latestTs es := by
    rcases hsel with rfl | ⟨rfl, rfl⟩ <;> rfl
  obtain ⟨-, h2, h3⟩ := latestTs_fold_spec es 0
  rw [hval]
  exact ⟨h2, h3, rfl⟩

/-- **C4, witness.** With today's listing holding one `.ts` segment of
modification time 50, the probe's result dominates 50. -/
theorem claim_C4_witness :
    (50 : Int) ≤ Recorder.getLastRecordingTime
      (some [⟨"12-00-00.ts", false, 50⟩]) none :=
  (claim_C4 (some [⟨"12-00-00.ts", false, 50⟩]) none
      [⟨"12-00-00.ts", false, 50⟩] (Or.inl rfl)).1
    ⟨"12-00-00.ts", false, 50⟩ (List.mem_singleton.mpr rfl) rfl (by decide)

namespace Recovery

/-- An action absent from the history has count zero. -/
theorem countAction_eq_zero {st : CamState} {a : RAction}
    (h : hasAttempted st a = false) : countAction st a = 0 := by
  unfold hasAttempted at h
  unfold countAction
  rw [List.length_eq_zero, List.filter_eq_nil]
  intro p hp
  rw [List.any_eq_false] at h
  simpa using h p hp

/-- Counting after appending one attempt. -/
theorem countAction_append (st : CamState) (t : Int) (b a : RAction) :
    countAction ⟨st.failureDetectedAt, st.recoveryAttempts ++ [(t, b)]⟩ a =
      countAction st a + (if b = a then 1 else 0) := by
  unfold countAction
  rw [List.filter_append, List.length_append]
  by_cases hb : b = a <;> simp [hb]

/-- Membership test after appending one attempt. -/
theorem hasAttempted_append (st : CamState) (t : Int) (b a : RAction) :
    hasAttempted ⟨st.failureDetectedAt, st.recoveryAttempts ++ [(t, b)]⟩ a =
      (hasAttempted st a || b == a) := by
  unfold hasAttempted
  rw [List.any_append]
  simp

/-- The escalation step preserves the episode invariant. -/
theorem recoverCamera_inv (cfg : RecoveryConfig) (st : CamState) (now : Int)
    (h : Inv st) : Inv (recoverCamera cfg st now).1 := by
  obtain ⟨hg, hs, hp, hsg, hps⟩ := h
  unfold recoverCamera
  split_ifs with h1 h2 h3 h4
  · exact ⟨hg, hs, hp, hsg, hps⟩
  · refine ⟨?_, ?_, ?_, ?_, ?_⟩ <;>
      simp only [countAction_append, hasAttempted_append]
    · rw [countAction_eq_zero h2]; simp
    · simpa using hs
    · simpa using hp
    · simp
    · simp only [Bool.or_eq_true]
      rintro (hx | hx)
      · exact Or.inl (hps hx)
      · simp at hx
  · refine ⟨?_, ?_, ?_, ?_, ?_⟩ <;>
      simp only [countAction_append, hasAttempted_append]
    · simpa using hg
    · rw [countAction_eq_zero h3]; simp
    · simpa using hp
    · rw [Bool.not_eq_false] at h2
      simp [h2]
    · simp only [Bool.or_eq_true]
      rintro (hx | hx)
      · exact absurd (hps hx) (by simp [h3])
      · simp at hx
  · refine ⟨?_, ?_, ?_, ?_, ?_⟩ <;>
      simp only [countAction_append, hasAttempted_append]
    · simpa using hg
    · simpa using hs
    · rw [countAction_eq_zero h4]; simp
    · rw [Bool.not_eq_false] at h2
      simp [h2]
    · rw [Bool.not_eq_false] at h3
      simp [h3]
  · exact ⟨hg, hs, hp, hsg, hps⟩

/-- The six possible results of one tick. -/
theorem checkCamera_cases (cfg : RecoveryConfig) (st : CamState) (now last : Int) :
    checkCamera cfg st now last = (st, .noRecordings) ∨
    checkCamera cfg st now last = (⟨none, []⟩, .recovered) ∨
    checkCamera cfg st now last = (st, .fresh) ∨
    checkCamera cfg st now last = ({ st with failureDetectedAt := some now }, .detected) ∨
    checkCamera cfg st now last = (st, .verifying) ∨
    checkCamera cfg st now last = recoverCamera cfg st now := by
  unfold checkCamera
  by_cases h0 : last = 0
  · rw [if_pos h0]; tauto
  · rw [if_neg h0]
    by_cases h1 : now - last < cfg.staleThreshold
    · rw [if_pos h1]
      cases hf : st.failureDetectedAt <;> tauto
    · rw [if_neg h1]
      cases hf : st.failureDetectedAt with
      | none => tauto
      | some t0 =>
        dsimp only
        by_cases h2 : now - t0 < cfg.verificationDelay
        · rw [if_pos h2]; tauto
        · rw [if_neg h2]; tauto

/-- One tick preserves the episode invariant. -/
theorem checkCamera_inv (cfg : RecoveryConfig) (st : CamState) (now last : Int)
    (h : Inv st) : Inv (checkCamera cfg st now last).1 := by
  rcases checkCamera_cases cfg st now last with he | he | he | he | he | he <;> rw [he]
  · exact h
  · exact ⟨by decide, by decide, by decide, by decide, by decide⟩
  · exact h
  · exact h
  · exact h
  · exact recoverCamera_inv cfg st now h

/-- The invariant holds at every state reachable from a fresh camera. -/
theorem runTrace_inv (cfg : RecoveryConfig) :
    ∀ (events : List (Int × Int)) (st : CamState),
      Inv st → Inv (runTrace cfg st events).1 := by
  intro events
  induction events with
  | nil => intro st h; exact h
  | cons e rest ih =>
    intro st h
    exact ih _ (checkCamera_inv cfg st e.1 e.2 h)

/-- The invariant of a fresh camera. -/
theorem initState_inv : Inv initState :=
  ⟨by decide, by decide, by decide, by decide, by decide⟩

/-- Escalation never reports a recovery. -/
theorem recoverCamera_ne_recovered {cfg : RecoveryConfig} {st : CamState} {now : Int} :
    (recoverCamera cfg st now).2 ≠ .recovered := by
  unfold recoverCamera
  split_ifs <;> simp

/-- Escalation runs `service_restart` only after `goroutine_restart` was
attempted this episode. -/
theorem recoverCamera_acted_service {cfg : RecoveryConfig} {st : CamState} {now : Int}
    (h : (recoverCamera cfg st now).2 = .acted .service_restart) :
    hasAttempted st .goroutine_restart = true := by
  unfold recoverCamera at h
  split_ifs at h with h1 h2 h3 h4 <;> simp_all [Bool.not_eq_false]

/-- Escalation runs `power_cycle` only after both lower tiers were
attempted this episode. -/
theorem recoverCamera_acted_power {cfg : RecoveryConfig} {st : CamState} {now : Int}
    (h : (recoverCamera cfg st now).2 = .acted .power_cycle) :
    hasAttempted st .service_restart = true ∧
    hasAttempted st .goroutine_restart = true := by
  unfold recoverCamera at h
  split_ifs at h with h1 h2 h3 h4 <;> simp_all [Bool.not_eq_false]

end Recovery

/-- **C5.** At every state reachable by the recovery controller from a
fresh camera, the current episode's history holds `pipeline_restart`
(source name `goroutine_restart`) and `service_restart` each at most once;
a tick that performs tier N has tier N−1 already attempted in the same
episode; and a tick that observes the camera healthy again clears the
attempts list and the detection timestamp. -/
theorem claim_C5 (cfg : Recovery.RecoveryConfig) (events : List (Int × Int)) :
    (Recovery.countAction (Recovery.finalState cfg events) .goroutine_restart ≤ 1 ∧
      Recovery.countAction (Recovery.finalState cfg events) .service_restart ≤ 1) ∧
    (∀ t last,
      (Recovery.checkCamera cfg (Recovery.finalState cfg events) t last).2 =
          Recovery.Outcome.acted .service_restart →
        Recovery.hasAttempted (Recovery.finalState cfg events) .goroutine_restart = true) ∧
    (∀ t last,
      (Recovery.checkCamera cfg (Recovery.finalState cfg events) t last).2 =
          Recovery.Outcome.acted .power_cycle →
        Recovery.hasAttempted (Recovery.finalState cfg events) .service_restart = true ∧
        Recovery.hasAttempted (Recovery.finalState cfg events) .goroutine_restart = true) ∧
    (∀ t last,
      (Recovery.checkCamera cfg (Recovery.finalState cfg events) t last).2 =
          Recovery.Outcome.recovered →
        (Recovery.checkCamera cfg (Recovery.finalState cfg events) t last).1 =
          ⟨none, []⟩) := by
  have hinv := Recovery.runTrace_inv cfg events Recovery.initState Recovery.initState_inv
  refine ⟨⟨hinv.1, hinv.2.1⟩, ?_, ?_, ?_⟩
  · intro t last h
    rcases Recovery.checkCamera_cases cfg (Recovery.finalState cfg events) t last with
      he | he | he | he | he | he <;> rw [he] at h <;> try exact absurd h (by simp)
    exact Recovery.recoverCamera_acted_service h
  · intro t last h
    rcases Recovery.checkCamera_cases cfg (Recovery.finalState cfg events) t last with
      he | he | he | he | he | he <;> rw [he] at h <;> try exact absurd h (by simp)
    exact Recovery.recoverCamera_acted_power h
  · intro t last h
    rcases Recovery.checkCamera_cases cfg (Recovery.finalState cfg events) t last with
      he | he | he | he | he | he <;> rw [he] <;> rw [he] at h <;>
      first
        | rfl
        | exact absurd h (by simp)
        | skip
    exact absurd h (Recovery.recoverCamera_ne_recovered)

/-- **C5, witness.** A camera detected stale at tick 1000 and observed
fresh at tick 1010: the tick clears the detection timestamp and the
attempts list. -/
theorem claim_C5_witness :
    (Recovery.checkCamera ⟨600, 60, 2⟩
      (Recovery.finalState ⟨600, 60, 2⟩ [(1000, 1)]) 1010 1005).1 = ⟨none, []⟩ :=
  (claim_C5 ⟨600, 60, 2⟩ [(1000, 1)]).2.2.2 1010 1005 (by decide)

/-- **C6, counterexample.** With `max_power_cycles_per_30min = 2`, a run of
three short failure episodes separated by momentary recoveries performs
three power cycles (at ticks 1180, 1480 and 1780) inside one 30-minute
window: each recovery clears the attempt history, so the rolling-window cap
never sees the earlier cycles. -/
theorem claim_C6_counterexample :
    ((Recovery.runTrace ⟨600, 60, 2⟩ Recovery.initState Recovery.cexEvents).2.filter
        fun p => decide (p.2 = Recovery.Outcome.acted .power_cycle) &&
          decide (1780 - 1800 < p.1) && decide (p.1 ≤ 1780)).length = 3 ∧
    ¬ ((3 : Int) ≤ (⟨600, 60, 2⟩ : Recovery.RecoveryConfig).maxPowerCyclesPer30Min) := by
  decide

/-- **C6, amended.** The cap is enforced against the attempt history of the
current failure episode only: whenever an escalation tick finds at least
`max_power_cycles_per_30min` power cycles recorded in the last 30 minutes
of the history it emits the critical manual-intervention alert and performs
no recovery action (state unchanged), and within one episode `power_cycle`
is attempted at most once; but since the history is cleared on recovery,
power cycles across episodes are not bounded by the cap in a rolling
window. -/
theorem claim_C6 (cfg : Recovery.RecoveryConfig) (events : List (Int × Int))
    (t last t0 : Int)
    (h0 : ¬ last = 0) (h1 : ¬ (t - last < cfg.staleThreshold))
    (hf : (Recovery.finalState cfg events).failureDetectedAt = some t0)
    (h2 : ¬ (t - t0 < cfg.verificationDelay))
    (hcap : cfg.maxPowerCyclesPer30Min ≤
      (Recovery.countRecentAttempts (Recovery.finalState cfg events)
        .power_cycle t 1800 : Int)) :
    Recovery.checkCamera cfg (Recovery.finalState cfg events) t last =
      (Recovery.finalState cfg events, Recovery.Outcome.capAlert) ∧
    Recovery.countAction (Recovery.finalState cfg events) .power_cycle ≤ 1 := by
  constructor
  · unfold Recovery.checkCamera
    rw [if_neg h0, if_neg h1, hf]
    dsimp only
    rw [if_neg h2]
    unfold Recovery.recoverCamera
    rw [if_pos hcap]
  · exact (Recovery.runTrace_inv cfg events Recovery.initState
      Recovery.initState_inv).2.2.1

/-- **C6, witness.** With the cap set to 0, the escalation tick after
detection and verification emits the alert and leaves the state unchanged. -/
theorem claim_C6_witness :
    Recovery.checkCamera ⟨600, 60, 0⟩
        (Recovery.finalState ⟨600, 60, 0⟩ [(1000, 1)]) 1060 1 =
      (Recovery.finalState ⟨600, 60, 0⟩ [(1000, 1)], Recovery.Outcome.capAlert) ∧
    Recovery.countAction (Recovery.finalState ⟨600, 60, 0⟩ [(1000, 1)])
      .power_cycle ≤ 1 :=
  claim_C6 ⟨600, 60, 0⟩ [(1000, 1)] 1060 1 1000 (by decide) (by decide)
    (by decide) (by decide) (by decide)

namespace WebUI

/-- Membership in a segment insertion step. -/
theorem mem_insertSeg {x : Int × Int} {l : List (Int × Int)} {y : Int × Int} :
    y ∈ insertSeg x l ↔ y = x ∨ y ∈ l := by
  induction l with
  | nil => simp [insertSeg]
  | cons e rest ih =>
    simp only [insertSeg]
    split
    · simp [or_comm, or_left_comm]
    · simp only [List.mem_cons, ih]
      tauto

/-- Segment insertion preserves start-second sortedness. -/
theorem pairwise_insertSeg {x : Int × Int} {l : List (Int × Int)}
    (h : l.Pairwise fun a b => a.1 ≤ b.1) :
    (insertSeg x l).Pairwise fun a b => a.1 ≤ b.1 := by
  induction l with
  | nil => simp [insertSeg, List.pairwise_cons]
  | cons e rest ih =>
    rw [List.pairwise_cons] at h
    simp only [insertSeg]
    split
    case isTrue hle =>
      refine List.Pairwise.cons ?_ (List.Pairwise.cons h.1 h.2)
      intro y hy
      rcases List.mem_cons.mp hy with rfl | hy
      · exact hle
      · exact le_trans hle (h.1 y hy)
    case isFalse hgt =>
      refine List.Pairwise.cons ?_ (ih h.2)
      intro y hy
      rcases mem_insertSeg.mp hy with rfl | hy
      · exact le_of_not_le hgt
      · exact h.1 y hy

/-- The timeline sort produces a start-ascending list. -/
theorem pairwise_sortSegs (l : List (Int × Int)) :
    (sortSegs l).Pairwise fun a b => a.1 ≤ b.1 := by
  induction l with
  | nil => exact List.Pairwise.nil
  | cons x rest ih => exact pairwise_insertSeg ih

/-- A sorted list has the same members. -/
theorem mem_sortSegs {l : List (Int × Int)} {y : Int × Int} :
    y ∈ sortSegs l ↔ y ∈ l := by
  induction l with
  | nil => simp [sortSegs]
  | cons x rest ih =>
    simp [sortSegs, mem_insertSeg, ih]

/-- The handler's consecutive-gap loop equals the spec-side filter over
consecutive `(end, next start)` pairs. -/
theorem midGaps_eq_spec :
    ∀ (rest : List (Int × Int)) (s : Int × Int),
      midGaps (s :: rest) =
        ((s :: rest).zip rest).filterMap fun p =>
          if 120 < p.2.1 - p.1.2 then some (p.1.2, p.2.1, (p.2.1 - p.1.2) / 60)
          else none := by
  intro rest
  induction rest with
  | nil => intro s; rfl
  | cons b rest' ih =>
    intro s
    by_cases hb : 120 < b.1 - s.2 <;>
      simp [midGaps, ih b, List.zip_cons_cons, List.filterMap_cons, hb]

/-- The handler's gap derivation coincides with the spec-side description:
exactly the boundary periods strictly longer than two minutes, and a single
1440-minute gap for an empty day. -/
theorem gapsOf_eq_specGaps : ∀ segs : List (Int × Int), gapsOf segs = specGaps segs := by
  intro segs
  cases segs with
  | nil => rfl
  | cons s rest =>
    simp only [gapsOf, specGaps, specBoundaries, List.filterMap_cons,
      List.filterMap_append, List.filterMap_map, midGaps_eq_spec,
      Function.comp_def, sub_zero]
    by_cases h1 : (120 : Int) < s.1 <;>
      by_cases h2 : 120 < 86399 - ((s :: rest).getLast (List.cons_ne_nil s rest)).2 <;>
      simp [h1, h2]

/-- All partition files parse when every name has at least eight bytes. -/
theorem parseStarts_total :
    ∀ files : List String, (∀ f ∈ files, 8 ≤ f.data.length) →
      ∃ l, parseStarts files = some l := by
  intro files
  induction files with
  | nil => intro _; exact ⟨[], rfl⟩
  | cons f rest ih =>
    intro h
    obtain ⟨l, hl⟩ := ih fun g hg => h g (List.mem_cons_of_mem f hg)
    have hslice : sliceTime f = some (f.data.take 8) := by
      unfold sliceTime
      rw [if_pos (h f (List.mem_cons_self f rest))]
    have hfs : fileStart f = some (match parseHMS (f.data.take 8) with
        | some t => t
        | none => 0) := by
      unfold fileStart
      rw [hslice]
      rfl
    refine ⟨(match parseHMS (f.data.take 8) with | some t => t | none => 0) :: l, ?_⟩
    unfold parseStarts
    rw [hfs, hl]

/-- The list handler succeeds when every name has at least eight bytes. -/
theorem handleRecordingsList_total :
    ∀ files : List String, (∀ f ∈ files, 8 ≤ f.data.length) →
      ∃ l, handleRecordingsList files = some l := by
  intro files
  induction files with
  | nil => intro _; exact ⟨[], rfl⟩
  | cons f rest ih =>
    intro h
    obtain ⟨l, hl⟩ := ih fun g hg => h g (List.mem_cons_of_mem f hg)
    have hf : sliceTime f = some (f.data.take 8) := by
      unfold sliceTime
      rw [if_pos (h f (List.mem_cons_self f rest))]
    refine ⟨(f, f.data.take 8) :: l, ?_⟩
    unfold handleRecordingsList
    rw [hf, hl]

end WebUI

/-- **C7.** For every partition whose file names all slice and parse, the
timeline response's gap list is exactly the spec-described one: the
boundary periods (midnight to first start, consecutive `(end, next start)`
pairs in start order, last end to `23:59:59`) that are strictly longer
than two minutes, with truncated-minute durations; the reported segments
are sorted by start; and an empty partition yields the single
1440-minute whole-day gap. -/
theorem claim_C7 (dur : Int) (files : List String) (starts : List Int)
    (h : WebUI.parseStarts files = some starts) :
    WebUI.handleRecordingsTimeline dur files =
      some (WebUI.sortSegs (starts.map fun s => (s, WebUI.timelineSegEnd dur s)),
        WebUI.specGaps
          (WebUI.sortSegs (starts.map fun s => (s, WebUI.timelineSegEnd dur s)))) ∧
    (WebUI.sortSegs (starts.map fun s => (s, WebUI.timelineSegEnd dur s))).Pairwise
      (fun a b => a.1 ≤ b.1) ∧
    WebUI.handleRecordingsTimeline dur [] = some ([], [(0, 86399, 1440)]) := by
  refine ⟨?_, WebUI.pairwise_sortSegs _, rfl⟩
  simp [WebUI.handleRecordingsTimeline, h, WebUI.gapsOf_eq_specGaps]

/-- **C7, witness.** The spec's own gap scenario: segments at `08:00:00`
and `08:45:00` yield the 15-minute inter-segment gap plus the two
boundary gaps. -/
theorem claim_C7_witness :
    WebUI.handleRecordingsTimeline 1800 ["08-45-00.ts", "08-00-00.ts"] =
      some ([(28800, 30600), (31500, 33300)],
        [(0, 28800, 480), (30600, 31500, 15), (33300, 86399, 884)]) := by
  have h := (claim_C7 1800 ["08-45-00.ts", "08-00-00.ts"] [31500, 28800] (by decide)).1
  rw [h]
  decide

/-- **C8, counterexample.** With `storage.segment_duration = 600` seconds,
the claim predicts a segment starting at `00:00:00` ends at second 600;
the handler reports second 1800: the timeline end is a hardcoded 30
minutes, not the configured archive duration. -/
theorem claim_C8_counterexample :
    WebUI.handleRecordingsTimeline 600 ["00-00-00.ts"] =
      some ([(0, 1800)], [(1800, 86399, 1409)]) ∧
    (1800 : Int) ≠ 0 + 600 := by
  decide

/-- **C8, amended.** Every segment reported by the timeline has end equal
to its start plus a hardcoded 30 minutes (not the configured
`storage.segment_duration`), clamped to `23:59:59` (second 86399) when the
sum crosses the day boundary. -/
theorem claim_C8 (dur : Int) (files : List String)
    (segs : List (Int × Int)) (gaps : List (Int × Int × Int))
    (hres : WebUI.handleRecordingsTimeline dur files = some (segs, gaps))
    (sg : Int × Int) (hsg : sg ∈ segs) :
    sg.2 = if 86400 ≤ sg.1 + 1800 then 86399 else sg.1 + 1800 := by
  unfold WebUI.handleRecordingsTimeline at hres
  cases hp : WebUI.parseStarts files with
  | none => rw [hp] at hres; exact absurd hres (by simp)
  | some starts =>
    rw [hp] at hres
    simp only [Option.map_some', Option.some.injEq, Prod.mk.injEq] at hres
    rw [← hres.1] at hsg
    obtain ⟨s, -, rfl⟩ := List.mem_map.mp (WebUI.mem_sortSegs.mp hsg)
    rfl

/-- **C8, witness.** The spec's boundary example: a segment starting at
`23:45:00` (second 85500) is clamped to end `23:59:59` (second 86399). -/
theorem claim_C8_witness :
    (86399 : Int) = if (86400 : Int) ≤ 85500 + 1800 then 86399 else 85500 + 1800 :=
  claim_C8 600 ["23-45-00.ts"] [(85500, 86399)] [(0, 85500, 1425)]
    (by decide) (85500, 86399) (by decide)

/-- **C10.** The list and timeline handlers slice the first eight bytes of
every `.ts` name without a length check: they are total on partitions
whose base names all have at least eight bytes, while a shorter name such
as `a.ts` makes the slice panic (modelled `none`) on both routes. -/
theorem claim_C10 (files : List String) (h : ∀ f ∈ files, 8 ≤ f.data.length) :
    (∃ r, WebUI.handleRecordingsList files = some r) ∧
    (∀ dur : Int, ∃ r, WebUI.handleRecordingsTimeline dur files = some r) ∧
    WebUI.handleRecordingsList ["a.ts"] = none ∧
    WebUI.handleRecordingsTimeline 1800 ["a.ts"] = none := by
  refine ⟨WebUI.handleRecordingsList_total files h, ?_, by decide, by decide⟩
  intro dur
  obtain ⟨l, hl⟩ := WebUI.parseStarts_total files h
  refine ⟨(WebUI.sortSegs (l.map fun s => (s, WebUI.timelineSegEnd dur s)),
    WebUI.gapsOf (WebUI.sortSegs (l.map fun s => (s, WebUI.timelineSegEnd dur s)))), ?_⟩
  simp [WebUI.handleRecordingsTimeline, hl]

/-- **C10, witness.** A well-formed one-file partition is served by the
list handler, and the short name `a.ts` panics it. -/
theorem claim_C10_witness :
    WebUI.handleRecordingsList ["a.ts"] = none :=
  (claim_C10 ["10-00-00.ts"] (by decide)).2.2.1


/-- A digit character is not a slash. -/
theorem digitVal_ne_slash {c : Char} {v : Nat} (h : digitVal c = some v) : c ≠ '/' := by
  rintro rfl
  rw [show digitVal '/' = none from by decide] at h
  exact Option.noConfusion h

/-- A string that parses as a date contains no slash. -/
theorem parseDate_noSlash {s : String} {d : Int} (hp : parseDate s = some d) :
    '/' ∉ s.data := by
  unfold parseDate at hp
  split at hp
  case _ y1 y2 y3 y4 c1 m1 m2 c2 d1 d2 heq =>
    split at hp
    case isTrue hc =>
      split at hp
      next a b c d2 e f g h2 ha hb hc2 hd he hf hg hh =>
        rw [heq]
        intro hmem
        simp only [List.mem_cons, List.not_mem_nil, or_false] at hmem
        rcases hmem with rfl | rfl | rfl | rfl | rfl | rfl | rfl | rfl | rfl | rfl
        · exact digitVal_ne_slash ha rfl
        · exact digitVal_ne_slash hb rfl
        · exact digitVal_ne_slash hc2 rfl
        · exact digitVal_ne_slash hd rfl
        · exact absurd hc.1 (by decide)
        · exact digitVal_ne_slash he rfl
        · exact digitVal_ne_slash hf rfl
        · exact absurd hc.2 (by decide)
        · exact digitVal_ne_slash hg rfl
        · exact digitVal_ne_slash hh rfl
      next => exact absurd hp (by simp)
    case isFalse => exact absurd hp (by simp)
  case _ => exact absurd hp (by simp)

namespace WebUI

theorem foldl_cleanStep_normal :
    ∀ (l acc : List (List Char)), (∀ c ∈ l, normalComp c) →
      l.foldl cleanStep acc = acc ++ l := by
  intro l
  induction l with
  | nil => intro acc _; simp
  | cons c rest ih =>
    intro acc h
    have hc := h c (List.mem_cons_self c rest)
    have hstep : cleanStep acc c = acc ++ [c] := by
      unfold cleanStep
      rw [if_neg (by rintro (h1 | h1) <;> [exact hc.1 h1; exact hc.2.1 h1]),
        if_neg hc.2.2.1]
    rw [List.foldl_cons, hstep, ih _ fun x hx => h x (List.mem_cons_of_mem c hx)]
    simp

theorem cleanComps_eq_self {l : List (List Char)} (h : ∀ c ∈ l, normalComp c) :
    cleanComps l = l := by
  unfold cleanComps
  rw [foldl_cleanStep_normal l [] h]
  rfl

theorem mem_foldl_cleanStep :
    ∀ (l acc : List (List Char)) (c : List Char),
      c ∈ l.foldl cleanStep acc → c ∈ acc ∨ c ∈ l := by
  intro l
  induction l with
  | nil => intro acc c h; exact Or.inl h
  | cons a rest ih =>
    intro acc c h
    rw [List.foldl_cons] at h
    rcases ih _ c h with hacc | hrest
    · unfold cleanStep at hacc
      split_ifs at hacc with h1 h2
      · exact Or.inl hacc
      · exact Or.inl (List.dropLast_subset _ hacc)
      · rcases List.mem_append.mp hacc with h3 | h3
        · exact Or.inl h3
        · simp only [List.mem_singleton] at h3
          exact Or.inr (by simp [h3])
    · exact Or.inr (List.mem_cons_of_mem a hrest)

theorem mem_cleanComps {l : List (List Char)} {c : List Char}
    (h : c ∈ cleanComps l) : c ∈ l :=
  (mem_foldl_cleanStep l [] c h).resolve_left (by simp)

theorem splitComps_ne_nil : ∀ l : List Char, splitComps l ≠ [] := by
  intro l
  cases l with
  | nil => simp [splitComps]
  | cons c rest =>
    unfold splitComps
    dsimp only
    split <;> simp

theorem mem_splitComps_noSlash :
    ∀ (l : List Char) (c : List Char), c ∈ splitComps l → '/' ∉ c := by
  intro l
  induction l with
  | nil =>
    intro c h
    simp [splitComps] at h
    simp [h]
  | cons a rest ih =>
    intro c h
    unfold splitComps at h
    dsimp only at h
    by_cases ha : a = '/'
    · rw [if_pos ha] at h
      rcases List.mem_cons.mp h with rfl | h2
      · simp
      · exact ih c h2
    · rw [if_neg ha] at h
      rcases List.mem_cons.mp h with rfl | h2
      · intro hmem
        rcases List.mem_cons.mp hmem with heq | hmem2
        · exact ha heq.symm
        · cases hsp : splitComps rest with
          | nil => exact absurd hsp (splitComps_ne_nil rest)
          | cons x xs =>
            rw [hsp] at hmem2
            exact ih x (by rw [hsp]; exact List.mem_cons_self x xs) hmem2
      · exact ih c (List.mem_of_mem_tail h2)

theorem renderPath_head :
    ∀ l : List (List Char), renderPath l = [] ∨ (renderPath l).head? = some '/' := by
  intro l
  cases l with
  | nil => exact Or.inl rfl
  | cons c rest => exact Or.inr rfl

theorem append_prefix_aux :
    ∀ (u v x y : List Char), '/' ∉ u → '/' ∉ v →
      (x = [] ∨ x.head? = some '/') → (y = [] ∨ y.head? = some '/') →
      (u ++ x) <+: (v ++ y) → x ≠ [] → u = v ∧ x <+: y := by
  intro u
  induction u with
  | nil =>
    intro v x y hu hv hx hy h hxne
    cases v with
    | nil => exact ⟨rfl, by simpa using h⟩
    | cons w v' =>
      rcases hx with rfl | hx
      · exact absurd rfl hxne
      · cases x with
        | nil => exact absurd rfl hxne
        | cons xc x'' =>
          simp only [List.head?_cons, Option.some.injEq] at hx
          subst hx
          have h1 := (List.cons_prefix_cons.mp (by simpa using h)).1
          exact absurd h1.symm (by intro hw; exact hv (by simp [hw]))
  | cons a u' ih =>
    intro v x y hu hv hx hy h hxne
    cases v with
    | nil =>
      rcases hy with rfl | hy
      · have h0 : (a :: u') ++ x <+: ([] : List Char) := by simpa using h
        have := List.prefix_nil.mp h0
        simp at this
      · cases y with
        | nil => simp at hy
        | cons yc y'' =>
          simp only [List.head?_cons, Option.some.injEq] at hy
          subst hy
          have h1 := (List.cons_prefix_cons.mp (by simpa using h)).1
          exact absurd h1 (by intro ha; exact hu (by simp [ha]))
    | cons w v' =>
      obtain ⟨ha, h2⟩ := List.cons_prefix_cons.mp (by simpa using h)
      obtain ⟨huv, hxy⟩ := ih v' x y
        (fun hm => hu (List.mem_cons_of_mem a hm))
        (fun hm => hv (List.mem_cons_of_mem w hm)) hx hy h2 hxne
      exact ⟨by rw [ha, huv], hxy⟩

theorem render_prefix_dropLast :
    ∀ (bs ps : List (List Char)),
      (∀ c ∈ bs, '/' ∉ c) → (∀ c ∈ ps, '/' ∉ c) →
      renderPath bs <+: renderPath ps → bs.dropLast <+: ps := by
  intro bs
  induction bs with
  | nil => intro ps _ _ _; simp
  | cons b bs' ih =>
    intro ps hb hp h
    cases bs' with
    | nil => simp
    | cons b2 bs'' =>
      cases ps with
      | nil =>
        have := List.prefix_nil.mp h
        exact absurd this (by simp [renderPath])
      | cons p ps' =>
        simp only [renderPath] at h
        obtain ⟨-, h2⟩ := List.cons_prefix_cons.mp h
        obtain ⟨hbp, h3⟩ := append_prefix_aux b p (renderPath (b2 :: bs'')) (renderPath ps')
          (hb b (List.mem_cons_self b _)) (hp p (List.mem_cons_self p _))
          (Or.inr rfl) (renderPath_head ps') h2 (by simp [renderPath])
        have h4 := ih ps'
          (fun c hc => hb c (List.mem_cons_of_mem b hc))
          (fun c hc => hp c (List.mem_cons_of_mem p hc)) h3
        have hstep : (b :: b2 :: bs'').dropLast = b :: (b2 :: bs'').dropLast := rfl
        rw [hstep]
        exact List.cons_prefix_cons.mpr ⟨hbp, h4⟩

theorem served_in_root (base : List (List Char)) (camera date filename : String)
    (hbase : ∀ c ∈ base, normalComp c) (hcam : normalComp camera.data)
    (hdate : '/' ∉ date.data)
    (hpre : (renderPath (cleanComps (base ++ [camera.data, "recordings".data]))).isPrefixOf
      (renderPath (cleanComps (base ++ [camera.data, "recordings".data, date.data] ++
        splitComps filename.data))) = true) :
    base <+: cleanComps (base ++ [camera.data, "recordings".data, date.data] ++
      splitComps filename.data) := by
  have hrec : normalComp "recordings".data := by decide
  have hbasecomps : ∀ c ∈ base ++ [camera.data, "recordings".data], normalComp c := by
    intro c hc
    rcases List.mem_append.mp hc with hc | hc
    · exact hbase c hc
    · rcases List.mem_cons.mp hc with rfl | hc
      · exact hcam
      · rcases List.mem_cons.mp hc with rfl | hc
        · exact hrec
        · simp at hc
  rw [cleanComps_eq_self hbasecomps] at hpre
  have hprefix := List.isPrefixOf_iff_prefix.mp hpre
  have hnoslashP : ∀ c ∈ cleanComps (base ++ [camera.data, "recordings".data, date.data] ++
      splitComps filename.data), '/' ∉ c := by
    intro c hc
    have hin := mem_cleanComps hc
    rcases List.mem_append.mp hin with hin | hin
    · rcases List.mem_append.mp hin with hin | hin
      · exact (hbase c hin).2.2.2
      · rcases List.mem_cons.mp hin with rfl | hin
        · exact hcam.2.2.2
        · rcases List.mem_cons.mp hin with rfl | hin
          · exact hrec.2.2.2
          · rcases List.mem_cons.mp hin with rfl | hin
            · exact hdate
            · simp at hin
    · exact mem_splitComps_noSlash _ c hin
  have hnoslashB : ∀ c ∈ base ++ [camera.data, "recordings".data], '/' ∉ c :=
    fun c hc => (hbasecomps c hc).2.2.2
  have hdl := render_prefix_dropLast _ _ hnoslashB hnoslashP hprefix
  have heq : (base ++ [camera.data, "recordings".data]).dropLast = base ++ [camera.data] := by
    have : base ++ [camera.data, "recordings".data] =
        (base ++ [camera.data]) ++ ["recordings".data] := by simp
    rw [this, List.dropLast_concat]
  rw [heq] at hdl
  exact (List.prefix_append base [camera.data]).trans hdl

end WebUI

/-- **C3, counterexample.** The single-segment playlist route accepts a
request for an existing `evil.mp4`: it performs no extension check, so a
non-`.ts` file is not rejected. -/
theorem claim_C3_counterexample :
    WebUI.isRejected
      (WebUI.handleRecordingPlaylist ["data".data] "cam" "2025-01-02" "evil.mp4" true)
      = false ∧
    extOf "evil.mp4" ≠ ".ts" := by
  decide

/-- **C3, amended.** For requests as the router delivers them (the camera
segment of a cleaned URL path is a normal component): the raw `.ts` route
rejects with an error status any filename whose extension is not `.ts`,
and any request it does serve resolves, after absolute-path
canonicalization, to a path inside the storage root (so escaping paths are
rejected and not served); the playlist route guarantees the same
containment for what it serves, but performs no extension check. -/
theorem claim_C3 (base : List (List Char)) (camera date filename : String)
    (present : Bool)
    (hbase : ∀ c ∈ base, WebUI.normalComp c)
    (hcam : WebUI.normalComp camera.data) :
    (extOf filename ≠ ".ts" →
      WebUI.handleRecordingPlayback base camera date filename =
        WebUI.PathResp.badRequest) ∧
    (∀ p, WebUI.handleRecordingPlayback base camera date filename =
        WebUI.PathResp.served p → base <+: p) ∧
    (∀ p, WebUI.handleRecordingPlaylist base camera date filename present =
        WebUI.PathResp.served p → '/' ∉ date.data → base <+: p) := by
  refine ⟨?_, ?_, ?_⟩
  · intro hext
    unfold WebUI.handleRecordingPlayback
    split_ifs with h1 h2 h3 h4 h5 <;> first | rfl | exact absurd hext h4
  · intro p hserve
    unfold WebUI.handleRecordingPlayback at hserve
    split_ifs at hserve with h1 h2 h3 h4 h5 <;> simp only [WebUI.PathResp.served.injEq] at hserve
    obtain ⟨day, hday⟩ : ∃ day, parseDate date = some day := by
      cases hpd : parseDate date with
      | none => exact absurd (by rw [hpd]; rfl) h3
      | some d => exact ⟨d, rfl⟩
    have hin := WebUI.served_in_root base camera date filename hbase hcam
      (parseDate_noSlash hday) (by simpa using h5)
    rw [← hserve]
    exact hin
  · intro p hserve hdate
    unfold WebUI.handleRecordingPlaylist at hserve
    split_ifs at hserve with h1 h2 <;> simp only [WebUI.PathResp.served.injEq] at hserve
    have hin := WebUI.served_in_root base camera date filename hbase hcam
      hdate (by simpa using h1)
    rw [← hserve]
    exact hin

/-- **C3, witness.** A playback request for `x.mp4` under a concrete
storage root is rejected with an error status. -/
theorem claim_C3_witness :
    WebUI.handleRecordingPlayback ["data".data] "cam" "2025-01-02" "x.mp4" =
      WebUI.PathResp.badRequest :=
  (claim_C3 ["data".data] "cam" "2025-01-02" "x.mp4" true (by decide) (by decide)).1 (by decide)

end CoreNVR

